import Mathlib

/-!
Verification of a material-requirements-planning (MRP) engine.

This file shallowly embeds the computational core of the repository:

* `apply_lot_sizing`      — the lot-sizing rule (advanced_mrp.py);
* `classify_materials`    — the material classifier (advanced_mrp.py);
* `build_bom_tree`        — BOM tree construction with cycle detection
                            (advanced_mrp.py / app.py);
* `get_all_requirements`  — recursive demand explosion with lead-time
                            offsetting (advanced_mrp.py);
* the per-material net-requirement computation of `calculate_advanced_mrp`,
  modelled as the constraint system handed to the integer/linear solver
  together with the row-emission pass over a solution;
* `check_capacity_constraints` — the post-hoc capacity checker;
* `validate_production_plan`   — the input validator (utils.py), modelled
  as a state transformer to capture pandas' in-place column assignment.

Material codes are strings, dates are integers (days), quantities are
rationals (pandas numerics).  Python dictionaries are modelled as
association lists with insertion-order preserving update.
-/

namespace MRP

/-! ### Lot sizing (advanced_mrp.apply_lot_sizing) -/

/-- Embedding of `advanced_mrp.apply_lot_sizing`.  Python integer `%` with a
positive modulus returns a nonnegative remainder, exactly like `Int.emod`. -/
def apply_lot_sizing (quantity min_lot_size lot_multiple : ℤ) : ℤ :=
  if quantity ≤ 0 then 0
  else
    let adjusted_quantity := max quantity min_lot_size
    if 1 < lot_multiple then
      let remainder := adjusted_quantity % lot_multiple
      if 0 < remainder then adjusted_quantity + (lot_multiple - remainder)
      else adjusted_quantity
    else adjusted_quantity

/-! ### Material classification (advanced_mrp.classify_materials) -/

/-- One BOM row: parent code, child code, quantity per parent unit. -/
structure BomEdge where
  parent : String
  child : String
  quantity : ℚ
deriving DecidableEq

/-- Material classes produced by `classify_materials`
(原材料 / 成品 / 中间件 / 未知). -/
inductive MaterialType where
  | raw
  | finished
  | intermediate
  | unknown
deriving DecidableEq

/-- The label `classify_materials` assigns to one material: the if/elif
chain over the three set-algebra classes. -/
def classifyLabel (bom_data : List BomEdge) (inventory : List String)
    (m : String) : MaterialType :=
  let all_materials := inventory.toFinset
  let all_parents := (bom_data.map BomEdge.parent).toFinset
  let all_children := (bom_data.map BomEdge.child).toFinset
  if m ∈ all_materials ∩ (all_children \ all_parents) then .raw
  else if m ∈ all_materials ∩ (all_parents \ all_children) then .finished
  else if m ∈ all_materials ∩ all_parents ∩ all_children then .intermediate
  else .unknown

/-- Embedding of `advanced_mrp.classify_materials`: one labelled row per
material of the inventory set (`set(inventory_data['物料编码'])`; the
Python set is modelled as the deduplicated code list). -/
def classify_materials (bom_data : List BomEdge) (inventory : List String) :
    List (String × MaterialType) :=
  inventory.dedup.map (fun m => (m, classifyLabel bom_data inventory m))

/-! ### Theorems for lot sizing and classification -/

/-- Claim C5: `apply_lot_sizing` returns 0 on nonpositive input; for positive
input with `base = max raw minLot` it returns, when `multiple > 1`, the unique
multiple of `multiple` in `[base, base + multiple)` (so `base` itself when
`base` is already a multiple), and otherwise `base`; in particular
`lot_size(5,20,10) = 20`, `lot_size(25,20,10) = 30`, `lot_size(0,20,10) = 0`,
`lot_size(-3,20,10) = 0`. -/
theorem C5_apply_lot_sizing_correct (raw minLot mult : ℤ) :
    (raw ≤ 0 → apply_lot_sizing raw minLot mult = 0) ∧
    (0 < raw → 1 < mult →
      mult ∣ apply_lot_sizing raw minLot mult ∧
      max raw minLot ≤ apply_lot_sizing raw minLot mult ∧
      apply_lot_sizing raw minLot mult < max raw minLot + mult) ∧
    (0 < raw → mult ≤ 1 → apply_lot_sizing raw minLot mult = max raw minLot) ∧
    apply_lot_sizing 5 20 10 = 20 ∧ apply_lot_sizing 25 20 10 = 30 ∧
    apply_lot_sizing 0 20 10 = 0 ∧ apply_lot_sizing (-3) 20 10 = 0 := by
  refine ⟨fun h => by simp [apply_lot_sizing, h], ?_, ?_,
    by decide, by decide, by decide, by decide⟩
  · intro h1 h2
    have hq : ¬ raw ≤ 0 := not_le.mpr h1
    have hm0 : (0 : ℤ) < mult := by omega
    set base := max raw minLot with hbase
    set r := base % mult with hrdef
    have hdiv : mult * (base / mult) + r = base := Int.ediv_add_emod base mult
    have hr0 : 0 ≤ r := Int.emod_nonneg base (by omega)
    have hrlt : r < mult := Int.emod_lt_of_pos base hm0
    by_cases hr : 0 < r
    · have hval : apply_lot_sizing raw minLot mult = base + (mult - r) := by
        simp [apply_lot_sizing, hq, h2, ← hbase, ← hrdef, hr]
      rw [hval]
      refine ⟨⟨base / mult + 1, by linear_combination -hdiv⟩, by omega, by omega⟩
    · have hval : apply_lot_sizing raw minLot mult = base := by
        simp [apply_lot_sizing, hq, h2, ← hbase, ← hrdef, hr]
      rw [hval]
      have hr' : r = 0 := by omega
      refine ⟨⟨base / mult, by linear_combination -hdiv + hr'⟩, le_refl _, by omega⟩
  · intro h1 h2
    simp [apply_lot_sizing, not_le.mpr h1, not_lt.mpr h2]

/-- Closed witness for C5 at concrete inputs. -/
theorem C5_apply_lot_sizing_correct_witness :
    apply_lot_sizing (-3) 20 10 = 0 ∧ apply_lot_sizing 7 20 10 = 20 := by
  constructor
  · exact (C5_apply_lot_sizing_correct (-3) 20 10).1 (by decide)
  · have h := ((C5_apply_lot_sizing_correct 7 20 10).2.1 (by decide) (by decide))
    have h1 := h.1
    have h2 := h.2.1
    have h3 := h.2.2
    rcases h1 with ⟨c, hc⟩
    simp only [show max (7 : ℤ) 20 = 20 by decide] at h2 h3
    omega

/-- Claim C10: the classifier labels every inventory material by pure set
algebra over the BOM edge set: a child that is never a parent is `raw`, a
parent that is never a child is `finished`, both is `intermediate`, neither
is `unknown`; and on edges {(A,B),(B,C)} with inventory {A,B,C} it labels
A finished, B intermediate, C raw. -/
theorem C10_classify_materials_correct :
    (∀ (bom : List BomEdge) (inventory : List String) (m : String),
      m ∈ inventory →
      ((classifyLabel bom inventory m = .raw ↔
          m ∈ bom.map BomEdge.child ∧ m ∉ bom.map BomEdge.parent) ∧
       (classifyLabel bom inventory m = .finished ↔
          m ∈ bom.map BomEdge.parent ∧ m ∉ bom.map BomEdge.child) ∧
       (classifyLabel bom inventory m = .intermediate ↔
          m ∈ bom.map BomEdge.parent ∧ m ∈ bom.map BomEdge.child) ∧
       (classifyLabel bom inventory m = .unknown ↔
          m ∉ bom.map BomEdge.parent ∧ m ∉ bom.map BomEdge.child))) ∧
    classify_materials [⟨"A", "B", 1⟩, ⟨"B", "C", 1⟩] ["A", "B", "C"] =
      [("A", .finished), ("B", .intermediate), ("C", .raw)] := by
  constructor
  · intro bom inventory m hm
    by_cases hp : m ∈ bom.map BomEdge.parent <;>
      by_cases hc : m ∈ bom.map BomEdge.child <;>
        simp [classifyLabel, hp, hc, hm]
  · decide

/-- Closed witness for C10: the classifier labels material B of the example
`intermediate`, via the set-algebra characterization. -/
theorem C10_classify_materials_correct_witness :
    classifyLabel [⟨"A", "B", 1⟩, ⟨"B", "C", 1⟩] ["A", "B", "C"] ("B") =
      .intermediate :=
  ((C10_classify_materials_correct.1 [⟨"A", "B", 1⟩, ⟨"B", "C", 1⟩]
      ["A", "B", "C"] ("B") (by decide)).2.2.1).mpr (by decide)

/-! ### BOM tree construction (build_bom_tree) -/

/-- Python dict assignment `d[k] = v` on an insertion-ordered association
list: overwrites in place if the key exists, else appends. -/
def setD {α β : Type} [DecidableEq α] : List (α × β) → α → β → List (α × β)
  | [], k, v => [(k, v)]
  | (k', v') :: rest, k, v =>
    if k' = k then (k, v) :: rest else (k', v') :: setD rest k v

/-- One value of the dictionary returned by `build_bom_tree`: edge quantity,
stored level, and the child subtree (itself such a dictionary). -/
inductive BomEntry where
  | mk (quantity : ℚ) (level : ℕ) (children : List (String × BomEntry))

/-- Edge quantity of a tree entry. -/
def BomEntry.qty : BomEntry → ℚ
  | .mk q _ _ => q

/-- Children dictionary of a tree entry. -/
def BomEntry.children : BomEntry → List (String × BomEntry)
  | .mk _ _ c => c

/-- Failure modes of the embedded builder: the Python `ValueError` carrying
the cycle path, plus an out-of-fuel marker for the recursion counter (shown
unreachable for sufficient fuel in the C3 theorem). -/
inductive BuildError where
  | cycle (path : List String)
  | fuelExhausted

mutual

/-- Embedding of `build_bom_tree` (advanced_mrp.py).  The Python function
recurses without an explicit bound; the recursion is driven here by a fuel
counter, and C3 shows that with fuel `buildFuel edges root` the
`.fuelExhausted` branch is never reached. -/
def build_bom_tree (edges : List BomEdge) (fuel : ℕ) (parent_item : String)
    (level : ℕ) (path : List String) :
    Except BuildError (List (String × BomEntry)) :=
  match fuel with
  | 0 => .error .fuelExhausted
  | fuel' + 1 =>
    if parent_item ∈ path then .error (.cycle (path ++ [parent_item]))
    else
      buildChildren edges fuel' level (path ++ [parent_item])
        (edges.filter (fun e => e.parent = parent_item)) []
termination_by (fuel, 0, 0)

/-- The `for _, row in children.iterrows()` loop of `build_bom_tree`:
recursively build each child subtree, then store it under the child code
(dict assignment, overwriting duplicates). -/
def buildChildren (edges : List BomEdge) (fuel level : ℕ) (path : List String)
    (rows : List BomEdge) (result : List (String × BomEntry)) :
    Except BuildError (List (String × BomEntry)) :=
  match rows with
  | [] => .ok result
  | e :: rest =>
    match build_bom_tree edges fuel e.child (level + 1) path with
    | .error err => .error err
    | .ok child_tree =>
        buildChildren edges fuel level path rest
          (setD result e.child (.mk e.quantity (level + 1) child_tree))
termination_by (fuel, 1, rows.length)

end

/-- One BOM step: some edge links `a` to `b`. -/
def EdgeStep (edges : List BomEdge) (a b : String) : Prop :=
  ∃ e ∈ edges, e.parent = a ∧ e.child = b

instance (edges : List BomEdge) (a b : String) : Decidable (EdgeStep edges a b) :=
  List.decidableBEx _ edges

/-- `p` is a composition path of the BOM edge set starting at `root`. -/
def IsBomPath (edges : List BomEdge) (root : String) (p : List String) : Prop :=
  p.head? = some root ∧ List.Chain' (EdgeStep edges) p

/-- All material codes that can ever appear on a path from `root`. -/
def nodeList (edges : List BomEdge) (root : String) : List String :=
  root :: (edges.map BomEdge.parent ++ edges.map BomEdge.child)

/-- Fuel sufficient for the builder: one more than the number of distinct
reachable-relevant codes. -/
def buildFuel (edges : List BomEdge) (root : String) : ℕ :=
  (nodeList edges root).toFinset.card + 1

/-! ### Cycle detection lemmas -/

theorem chainTail_mem {edges : List BomEdge} :
    ∀ {a : String} {q : List String}, List.Chain' (EdgeStep edges) (a :: q) →
      ∀ x ∈ q, x ∈ edges.map BomEdge.child := by
  intro a q
  induction q generalizing a with
  | nil => intro _ x hx; simp at hx
  | cons b q' ih =>
    intro h x hx
    rw [List.chain'_cons] at h
    rcases List.mem_cons.mp hx with rfl | hx'
    · obtain ⟨e, he, _, hec⟩ := h.1
      exact List.mem_map.mpr ⟨e, he, hec⟩
    · exact ih h.2 x hx'

theorem bomPath_mem {edges : List BomEdge} {root : String} {p : List String}
    (h : IsBomPath edges root p) : ∀ x ∈ p, x ∈ nodeList edges root := by
  obtain ⟨hhead, hchain⟩ := h
  intro x hx
  cases p with
  | nil => simp at hhead
  | cons a q =>
    simp only [List.head?_cons, Option.some.injEq] at hhead
    subst hhead
    rcases List.mem_cons.mp hx with rfl | hx'
    · exact List.mem_cons_self _ _
    · have hc := chainTail_mem hchain x hx'
      unfold nodeList
      simp only [List.mem_cons, List.mem_append]
      exact Or.inr (Or.inr hc)

theorem head?_append_left {α : Type} {l₁ : List α} (l₂ : List α) {r : α}
    (h : l₁.head? = some r) : (l₁ ++ l₂).head? = some r := by
  cases l₁ with
  | nil => simp at h
  | cons y l => simpa using h

theorem bomPath_extend {edges : List BomEdge} {root : String}
    {path : List String} {b c : String}
    (h : IsBomPath edges root (path ++ [b])) (hstep : EdgeStep edges b c) :
    IsBomPath edges root ((path ++ [b]) ++ [c]) := by
  obtain ⟨hhead, hchain⟩ := h
  constructor
  · exact head?_append_left [c] hhead
  · refine List.Chain'.append hchain (List.chain'_singleton c) ?_
    intro x hx y hy
    rw [List.getLast?_concat] at hx
    simp only [List.head?_cons, Option.mem_def, Option.some.injEq] at hx hy
    subst hx; subst hy
    exact hstep

theorem buildChildren_ok {edges : List BomEdge} {fuel level : ℕ}
    {path : List String} :
    ∀ {rows : List BomEdge} {acc t},
      buildChildren edges fuel level path rows acc = .ok t →
      ∀ e ∈ rows, ∃ t', build_bom_tree edges fuel e.child (level + 1) path = .ok t' := by
  intro rows
  induction rows with
  | nil => intro acc t _ e he; simp at he
  | cons e0 rest ih =>
    intro acc t h e he
    rw [buildChildren] at h
    cases hb : build_bom_tree edges fuel e0.child (level + 1) path with
    | error err => rw [hb] at h; simp at h
    | ok ct =>
      rw [hb] at h
      rcases List.mem_cons.mp he with rfl | he'
      · exact ⟨ct, hb⟩
      · exact ih h e he'

theorem build_result (edges : List BomEdge) (root : String) :
    ∀ (fuel : ℕ) (path : List String) (parent : String) (level : ℕ),
      path.Nodup →
      IsBomPath edges root (path ++ [parent]) →
      (nodeList edges root).toFinset.card + 1 ≤ fuel + path.length →
      (∃ t, build_bom_tree edges fuel parent level path = .ok t) ∨
      (∃ pre m, build_bom_tree edges fuel parent level path =
          .error (.cycle (pre ++ [m])) ∧
          IsBomPath edges root (pre ++ [m]) ∧ m ∈ pre) := by
  intro fuel
  induction fuel with
  | zero =>
    intro path parent level hnd hpath hcard
    exfalso
    have hsub : ∀ x ∈ path, x ∈ (nodeList edges root).toFinset := fun x hx =>
      List.mem_toFinset.mpr (bomPath_mem hpath x (by simp [hx]))
    have hle : path.length ≤ (nodeList edges root).toFinset.card := by
      calc path.length = path.toFinset.card := (List.toFinset_card_of_nodup hnd).symm
        _ ≤ _ := Finset.card_le_card (fun x hx => hsub x (List.mem_toFinset.mp hx))
    omega
  | succ fuel ih =>
    intro path parent level hnd hpath hcard
    by_cases hmem : parent ∈ path
    · exact Or.inr ⟨path, parent, by simp [build_bom_tree, hmem], hpath, hmem⟩
    · have hnd' : (path ++ [parent]).Nodup := by
        simp [List.nodup_append, hnd, hmem]
      have hfold : ∀ (rows : List BomEdge),
          (∀ e ∈ rows, e ∈ edges ∧ e.parent = parent) →
          ∀ acc,
          (∃ t, buildChildren edges fuel level (path ++ [parent]) rows acc = .ok t) ∨
          (∃ pre m, buildChildren edges fuel level (path ++ [parent]) rows acc =
              .error (.cycle (pre ++ [m])) ∧
              IsBomPath edges root (pre ++ [m]) ∧ m ∈ pre) := by
        intro rows
        induction rows with
        | nil => intro _ acc; exact Or.inl ⟨acc, by rw [buildChildren]⟩
        | cons e rest ihr =>
          intro hrows acc
          have he := hrows e (List.mem_cons_self _ _)
          have hstep : EdgeStep edges parent e.child := ⟨e, he.1, he.2, rfl⟩
          have hpath' : IsBomPath edges root ((path ++ [parent]) ++ [e.child]) :=
            bomPath_extend hpath hstep
          have hcard' : (nodeList edges root).toFinset.card + 1 ≤
              fuel + (path ++ [parent]).length := by
            simp only [List.length_append, List.length_singleton]; omega
          rcases ih (path ++ [parent]) e.child (level + 1) hnd' hpath' hcard' with
            ⟨t', ht'⟩ | ⟨pre, m, herr, hp, hm⟩
          · have hstepeq : buildChildren edges fuel level (path ++ [parent])
                (e :: rest) acc =
                buildChildren edges fuel level (path ++ [parent]) rest
                  (setD acc e.child (.mk e.quantity (level + 1) t')) := by
              rw [buildChildren, ht']
            rw [hstepeq]
            exact ihr (fun e' he' => hrows e' (List.mem_cons_of_mem _ he')) _
          · exact Or.inr ⟨pre, m, by rw [buildChildren, herr], hp, hm⟩
      have hrows : ∀ e ∈ edges.filter (fun e => e.parent = parent),
          e ∈ edges ∧ e.parent = parent := by
        intro e he
        have h' := List.mem_filter.mp he
        exact ⟨h'.1, by simpa using h'.2⟩
      rcases hfold _ hrows [] with ⟨t, ht⟩ | ⟨pre, m, herr, hp, hm⟩
      · exact Or.inl ⟨t, by rw [build_bom_tree]; simp only [if_neg hmem]; exact ht⟩
      · exact Or.inr ⟨pre, m, by rw [build_bom_tree]; simp only [if_neg hmem]; exact herr, hp, hm⟩

theorem build_ok_nodup (edges : List BomEdge) :
    ∀ (fuel : ℕ) (path : List String) (parent : String) (level : ℕ) (t : List (String × BomEntry)),
      build_bom_tree edges fuel parent level path = .ok t →
      path.Nodup →
      ∀ q, q.head? = some parent → List.Chain' (EdgeStep edges) q →
        (path ++ q).Nodup := by
  intro fuel
  induction fuel with
  | zero => intro path parent level t h; rw [build_bom_tree] at h; simp at h
  | succ fuel ih =>
    intro path parent level t h hnd q hq hchain
    by_cases hmem : parent ∈ path
    · rw [build_bom_tree] at h; simp [hmem] at h
    · rw [build_bom_tree] at h; simp only [if_neg hmem] at h
      cases q with
      | nil => simp at hq
      | cons a q' =>
        simp only [List.head?_cons, Option.some.injEq] at hq
        subst hq
        have hnd' : (path ++ [a]).Nodup := by
          simp [List.nodup_append, hnd, hmem]
        cases q' with
        | nil => simpa using hnd'
        | cons c q'' =>
          rw [List.chain'_cons] at hchain
          obtain ⟨⟨e, he, hep, hec⟩, hchain'⟩ := hchain
          have hef : e ∈ edges.filter (fun e => e.parent = a) :=
            List.mem_filter.mpr ⟨he, by simp [hep]⟩
          obtain ⟨t', ht'⟩ := buildChildren_ok h e hef
          have hrec := ih (path ++ [a]) e.child (level + 1) t' ht' hnd'
            (c :: q'') (by simp [hec]) hchain'
          simpa [List.append_assoc] using hrec

/-- Claim C3: with sufficient fuel, an edge set all of whose composition
paths from the root are duplicate-free builds successfully, while an edge
set with a path from the root that revisits a material fails with a cycle
error whose payload is exactly the offending path: an ordered ancestor
sequence from the root followed by the repeated material. -/
theorem C3_build_bom_tree_cycle_detection (edges : List BomEdge) (root : String) :
    ((∀ p, IsBomPath edges root p → p.Nodup) →
      ∃ t, build_bom_tree edges (buildFuel edges root) root 0 [] = .ok t) ∧
    ((∃ p, IsBomPath edges root p ∧ ¬ p.Nodup) →
      ∃ pre m, build_bom_tree edges (buildFuel edges root) root 0 [] =
          .error (.cycle (pre ++ [m])) ∧
          IsBomPath edges root (pre ++ [m]) ∧ m ∈ pre) := by
  have hroot : IsBomPath edges root (([] : List String) ++ [root]) := ⟨by simp, by simp⟩
  have hcard : (nodeList edges root).toFinset.card + 1 ≤
      buildFuel edges root + ([] : List String).length := by
    simp [buildFuel]
  have hres := build_result edges root (buildFuel edges root) [] root 0
    List.nodup_nil hroot hcard
  constructor
  · intro hacyc
    rcases hres with h | ⟨pre, m, _, hp, hm⟩
    · exact h
    · exfalso
      have hnd := hacyc _ hp
      rw [List.nodup_append] at hnd
      exact hnd.2.2 hm (by simp)
  · rintro ⟨p, hp, hnn⟩
    rcases hres with ⟨t, ht⟩ | h
    · exfalso
      have hok := build_ok_nodup edges (buildFuel edges root) [] root 0 t ht
        List.nodup_nil p hp.1 hp.2
      simp only [List.nil_append] at hok
      exact hnn hok
    · exact h

/-- Closed witness for C3: the self-loop edge set A → A fails with a cycle
error naming a repeating path. -/
theorem C3_build_bom_tree_cycle_detection_witness :
    ∃ pre m,
      build_bom_tree [⟨"A", "A", 1⟩] (buildFuel [⟨"A", "A", 1⟩] ("A")) ("A") 0 [] =
        .error (.cycle (pre ++ [m])) ∧
      IsBomPath [⟨"A", "A", 1⟩] ("A") (pre ++ [m]) ∧ m ∈ pre :=
  (C3_build_bom_tree_cycle_detection [⟨"A", "A", 1⟩] ("A")).2
    ⟨["A", "A"],
     ⟨rfl, List.chain'_cons.mpr
        ⟨⟨⟨"A", "A", 1⟩, by simp, rfl, rfl⟩, List.chain'_singleton _⟩⟩,
     by decide⟩

/-! ### Demand explosion (advanced get_all_requirements) -/

/-- One gross-requirement record emitted by the explosion
(物料编码 / 需求数量 / 需求日期 / 需求级别). -/
structure GrossRequirement where
  item : String
  quantity : ℚ
  date : ℤ
  level : ℕ
deriving DecidableEq

/-- `production_lead_time_map.get(item, 0)`: lead-time lookup defaulting
to 0 for materials without a record. -/
def prodLeadTime (lead_times : List (String × ℤ)) (item : String) : ℤ :=
  (lead_times.lookup item).getD 0

mutual

/-- Embedding of the advanced `get_all_requirements` (advanced_mrp.py):
emit the record for the current material at its lead-time-adjusted date,
then recurse into every child of the BOM tree node, multiplying quantities;
the child inherits the parent's adjusted date. -/
def get_all_requirements (lead_times : List (String × ℤ)) (item : String)
    (quantity : ℚ) (date : ℤ) (bom_tree_node : List (String × BomEntry))
    (level : ℕ) : List GrossRequirement :=
  let adjusted_date := date - prodLeadTime lead_times item
  ⟨item, quantity, adjusted_date, level⟩ ::
    childRequirements lead_times quantity adjusted_date bom_tree_node level
termination_by (sizeOf bom_tree_node, 1)

/-- The `for child_item, child_info in bom_tree_node.items()` loop of
`get_all_requirements`. -/
def childRequirements (lead_times : List (String × ℤ)) (quantity : ℚ)
    (adjusted_date : ℤ) (node : List (String × BomEntry)) (level : ℕ) :
    List GrossRequirement :=
  match node with
  | [] => []
  | (child_item, .mk q _ kids) :: rest =>
    get_all_requirements lead_times child_item (quantity * q) adjusted_date
      kids (level + 1) ++
    childRequirements lead_times quantity adjusted_date rest level
termination_by (sizeOf node, 0)

end

/-- All nonempty root-to-node chains of a BOM forest, in traversal order;
a chain records the (material, edge quantity) pairs along it. -/
def forestChains : List (String × BomEntry) → List (List (String × ℚ))
  | [] => []
  | (c, .mk q _ kids) :: rest =>
    ([(c, q)] :: (forestChains kids).map (fun p => (c, q) :: p)) ++
      forestChains rest

/-- Material at the end of a chain (`dflt` for the empty chain). -/
def chainItem (dflt : String) (p : List (String × ℚ)) : String :=
  (p.map Prod.fst).getLastD dflt

/-- Product of the per-edge quantities along a chain. -/
def chainQty (p : List (String × ℚ)) : ℚ :=
  (p.map Prod.snd).prod

/-- Sum of the production lead times of the materials along a chain. -/
def chainLead (lead_times : List (String × ℤ)) (p : List (String × ℚ)) : ℤ :=
  (p.map (fun cq => prodLeadTime lead_times cq.1)).sum

theorem forestChains_ne_nil :
    ∀ (node : List (String × BomEntry)), ∀ p ∈ forestChains node, p ≠ [] := by
  intro node
  induction node with
  | nil => intro p hp; simp [forestChains] at hp
  | cons head rest ih =>
    obtain ⟨c, e⟩ := head
    cases e with
    | mk q lvl kids =>
      intro p hp
      simp only [forestChains, List.cons_append, List.mem_cons, List.mem_append,
        List.mem_map] at hp
      rcases hp with rfl | hp | hp
      · simp
      · obtain ⟨p', _, rfl⟩ := hp
        simp
      · exact ih p hp

theorem chainItem_ne_nil {p : List (String × ℚ)} (h : p ≠ []) (d d' : String) :
    chainItem d p = chainItem d' p := by
  cases p with
  | nil => exact absurd rfl h
  | cons a q =>
    unfold chainItem
    simp only [List.map_cons, List.getLastD_cons]

theorem explosion_eq : ∀ (n : ℕ) (node : List (String × BomEntry)), sizeOf node ≤ n →
    (∀ (lead_times : List (String × ℤ)) (item : String) (quantity : ℚ)
        (date : ℤ) (level : ℕ),
      get_all_requirements lead_times item quantity date node level =
        ([] :: forestChains node).map (fun p =>
          ⟨chainItem item p, quantity * chainQty p,
           date - prodLeadTime lead_times item - chainLead lead_times p,
           level + p.length⟩)) ∧
    (∀ (lead_times : List (String × ℤ)) (quantity : ℚ) (adjusted_date : ℤ)
        (level : ℕ),
      childRequirements lead_times quantity adjusted_date node level =
        (forestChains node).map (fun p =>
          ⟨chainItem ("") p, quantity * chainQty p,
           adjusted_date - chainLead lead_times p, level + p.length⟩)) := by
  intro n
  induction n with
  | zero => intro node h; exfalso; cases node <;> simp at h
  | succ n ih =>
    intro node hsize
    have hchildhalf : ∀ (lead_times : List (String × ℤ)) (quantity : ℚ)
        (adjusted_date : ℤ) (level : ℕ),
        childRequirements lead_times quantity adjusted_date node level =
          (forestChains node).map (fun p =>
            ⟨chainItem ("") p, quantity * chainQty p,
             adjusted_date - chainLead lead_times p, level + p.length⟩) := by
      intro lead_times quantity adjusted_date level
      match node, hsize with
      | [], _ => rw [childRequirements]; simp [forestChains]
      | (child_item, .mk q lvl kids) :: rest, hsize =>
        rw [childRequirements]
        have hk : sizeOf kids ≤ n := by
          simp only [List.cons.sizeOf_spec, Prod.mk.sizeOf_spec,
            BomEntry.mk.sizeOf_spec] at hsize
          omega
        have hr : sizeOf rest ≤ n := by
          simp only [List.cons.sizeOf_spec, Prod.mk.sizeOf_spec,
            BomEntry.mk.sizeOf_spec] at hsize
          omega
        rw [(ih kids hk).1 lead_times child_item (quantity * q) adjusted_date
          (level + 1)]
        rw [(ih rest hr).2 lead_times quantity adjusted_date level]
        simp only [forestChains, List.cons_append, List.map_cons,
          List.map_append, List.map_map]
        congr 1
        · simp [chainItem, chainQty, chainLead]
        · congr 1
          refine List.map_congr_left ?_
          intro p _
          simp only [Function.comp_apply, chainItem, chainQty, chainLead,
            List.map_cons, List.getLastD_cons, List.prod_cons, List.sum_cons,
            List.length_cons, true_and, GrossRequirement.mk.injEq]
          refine ⟨by ring, by ring, by omega⟩
    refine ⟨?_, hchildhalf⟩
    intro lead_times item quantity date level
    rw [get_all_requirements]
    rw [hchildhalf lead_times quantity (date - prodLeadTime lead_times item) level]
    simp only [List.map_cons]
    congr 1
    · simp [chainItem, chainQty, chainLead]
    · refine List.map_congr_left ?_
      intro p hp
      have hne := forestChains_ne_nil node p hp
      rw [chainItem_ne_nil hne ("") item]

/-- Claim C6: the date on every emitted gross-requirement record equals the
production-plan due date minus the cumulative sum of the production lead
times (0 for any material without a lead-time record) of the node and of
every ancestor above it; positionally, the record of the node reached by
chain `p` below the root carries date
`plan date − (lead(root) + Σ lead over p)`, which also shows each node's own
lead-time-shifted date (not its inherited date) is the reference passed to
its children. -/
theorem C6_explosion_dates (lead_times : List (String × ℤ)) (item : String)
    (quantity : ℚ) (date : ℤ) (tree : List (String × BomEntry)) :
    (get_all_requirements lead_times item quantity date tree 0).map
        GrossRequirement.date =
      ([] :: forestChains tree).map (fun p =>
        date - (prodLeadTime lead_times item + chainLead lead_times p)) := by
  rw [(explosion_eq (sizeOf tree) tree le_rfl).1 lead_times item quantity date 0]
  rw [List.map_map]
  refine List.map_congr_left ?_
  intro p _
  simp [sub_sub]

/-- Claim C7: the quantity on every emitted gross-requirement record equals
the plan quantity times the product of the per-edge usage quantities along
its ancestor chain, and its recorded level is its depth (root 0, child =
parent + 1); the records are in positionwise bijection with the chains of
the tree, so each occurrence of a material under a distinct parent chain is
expanded independently. -/
theorem C7_explosion_quantities_levels (lead_times : List (String × ℤ))
    (item : String) (quantity : ℚ) (date : ℤ)
    (tree : List (String × BomEntry)) :
    (get_all_requirements lead_times item quantity date tree 0).map
        (fun r => (r.quantity, r.level)) =
      ([] :: forestChains tree).map (fun p => (quantity * chainQty p, p.length)) := by
  rw [(explosion_eq (sizeOf tree) tree le_rfl).1 lead_times item quantity date 0]
  rw [List.map_map]
  refine List.map_congr_left ?_
  intro p _
  simp

/-! ### Per-material netting (calculate_advanced_mrp, steps 9–11)

The aggregated demand table (`gross_requirements_summary`) and the
aggregated purchase-order table (`po_summary`) are rows
(material code, date, quantity).  The per-material net-requirement
variables created for the solver are one per date of the global grid
`all_dates`; a solver solution is therefore modelled as a list of
(date, net) pairs aligned with that grid, and the constraint system of
lines 231–256 of advanced_mrp.py becomes the predicate `solverFeasible`.
The row-emission pass of lines 271–304 over a solution is `emitRows`. -/

/-- `df[df['物料编码'] == item][df['日期列'] == d]['数量列'].sum()`:
the summed quantity of a (material, date, quantity) table at a key,
0 when no row matches. -/
def demandOn (tbl : List (String × ℤ × ℚ)) (item : String) (d : ℤ) : ℚ :=
  ((tbl.filter (fun r => r.1 = item ∧ r.2.1 = d)).map (fun r => r.2.2)).sum

/-- `sorted(gross_requirements_summary['需求日期'].unique())`: the global
date grid used by the netting loop — aggregated demand dates only. -/
def all_dates (summary : List (String × ℤ × ℚ)) : List ℤ :=
  ((summary.map (fun r => r.2.1)).toFinset).sort (· ≤ ·)

/-- `capacity_map.get(resource, \x7b\x7d).get(date)` for the capacity table:
nested dict built row by row, so the last record for a (resource, date) key
wins. -/
def capLookup (caps : List (String × ℤ × ℚ)) (r : String) (d : ℤ) : Option ℚ :=
  ((caps.filter (fun c => c.1 = r ∧ c.2.1 = d)).map (fun c => c.2.2)).getLast?

/-- The per-date constraints of advanced_mrp.py lines 238–245 on one net
requirement value: the variable's lower bound 0, the big-M pair
`net ≤ is_produced * 999999` and `net ≥ is_produced * min_lot` (with
`is_produced ∈ {0,1}` eliminated), the lot-multiple equation when
`multiple > 1`, and integrality of the variable when the code chose an
integer variable (`min_lot > 0 or lot_multiple > 1`). -/
def lotFeasible (min_lot mult x : ℚ) : Prop :=
  0 ≤ x ∧ (x = 0 ∨ (min_lot ≤ x ∧ x ≤ 999999)) ∧
  (1 < mult → ∃ k : ℤ, x = (k : ℚ) * mult) ∧
  ((0 < min_lot ∨ 1 < mult) → ∃ m : ℤ, x = (m : ℚ))

/-- The running `inventory_level` values of lines 233–249: after each grid
date, `inventory_level += po_on_date + net_requirements[date] - demand_on_date`. -/
def invLevelsL (demand po : ℤ → ℚ) : List (ℤ × ℚ) → ℚ → List ℚ
  | [], _ => []
  | (d, v) :: rest, inv =>
    (inv + po d + v - demand d) ::
      invLevelsL demand po rest (inv + po d + v - demand d)

/-- The full constraint system handed to the solver for one material
(advanced_mrp.py lines 231–256): every running inventory level at least the
safety stock, every net value lot-feasible, and — capacity folded into this
same solve — every net value at a grid date bounded by every capacity
record on that date. -/
def solverFeasible (demand po : ℤ → ℚ) (inv0 safety min_lot mult : ℚ)
    (caps : List (String × ℤ × ℚ)) (prs : List (ℤ × ℚ)) : Prop :=
  (∀ l ∈ invLevelsL demand po prs inv0, safety ≤ l) ∧
  (∀ pr ∈ prs, lotFeasible min_lot mult pr.2) ∧
  (∀ pr ∈ prs, ∀ r c, capLookup caps r pr.1 = some c → pr.2 ≤ c)

/-- Objective value of lines 258–265: the total net requirement. -/
def totalNetL (prs : List (ℤ × ℚ)) : ℚ :=
  (prs.map Prod.snd).sum

/-- One result row of `mrp_results`
(物料编码 / 需求周期 / 下单日期 / 总需求量 / 期初库存 / 安全库存 /
采购到货 / 净需求量 / 期末库存). -/
structure NetReqRow where
  item : String
  period : ℤ
  order_date : ℤ
  gross : ℚ
  opening : ℚ
  safety : ℚ
  receipt : ℚ
  net : ℚ
  closing : ℚ
deriving DecidableEq

/-- The row-emission pass of advanced_mrp.py lines 271–304: walk the grid
with the projected inventory, emit a row exactly when the solution's net
value is positive, then update the projected inventory. -/
def emitRows (item : String) (purchase_lead : ℤ) (demand po : ℤ → ℚ)
    (safety : ℚ) : List (ℤ × ℚ) → ℚ → List NetReqRow
  | [], _ => []
  | (d, net_req) :: rest, projected =>
    (if 0 < net_req then
      [⟨item, d, d - purchase_lead, demand d, projected, safety, po d, net_req,
        projected + po d + net_req - demand d⟩]
    else []) ++
      emitRows item purchase_lead demand po safety rest
        (projected + po d + net_req - demand d)

/-! ### The closed-form forward greedy pass of the specification (§4.4)

The following two definitions follow the specification's words, not the
source: they are the second half of the refinement claim C1, to be compared
with `solverFeasible`-optimal solutions. -/

/-- Spec §4.4 `lot_size(raw, minLot, multiple)`: if raw ≤ 0 then 0, else
`base = max(raw, minLot)` rounded up to the next multiple of `multiple`
when `multiple > 1` (unchanged if already a multiple), else `base`. -/
def lot_size (raw minLot mult : ℚ) : ℚ :=
  if raw ≤ 0 then 0
  else
    let base := max raw minLot
    if 1 < mult then mult * ⌈base / mult⌉ else base

/-- Spec §4.4 forward greedy pass over a material's sorted period list:
running inventory starts at on-hand stock; per period,
`raw_need = max(0, safety + demand − receipt − running)`,
`net = lot_size(raw_need, minLot, multiple)`, then
`running ← running + receipt + net − demand`; returns the (period, net)
pairs. -/
def greedyNets (safety minLot mult : ℚ) (demand receipt : ℤ → ℚ) :
    List ℤ → ℚ → List (ℤ × ℚ)
  | [], _ => []
  | t :: rest, running =>
    (t, lot_size (max 0 (safety + demand t - receipt t - running)) minLot mult) ::
      greedyNets safety minLot mult demand receipt rest
        (running + receipt t +
          lot_size (max 0 (safety + demand t - receipt t - running)) minLot mult -
          demand t)

/-- Spec §4.4 period list for one material: union of its aggregated demand
dates and scheduled receipt dates, sorted ascending. -/
def specPeriods (summary po_tbl : List (String × ℤ × ℚ)) (item : String) :
    List ℤ :=
  (((summary.filter (fun r => r.1 = item)).map (fun r => r.2.1)) ++
    ((po_tbl.filter (fun r => r.1 = item)).map (fun r => r.2.1))).toFinset.sort
    (· ≤ ·)

/-! ### Netting lemmas -/

theorem capLookup_nil (r : String) (d : ℤ) : capLookup [] r d = none := by
  simp [capLookup]

theorem lot_size_no_constraints {raw : ℚ} (h : 0 ≤ raw) :
    lot_size raw 0 1 = raw := by
  unfold lot_size
  by_cases h0 : raw ≤ 0
  · have : raw = 0 := le_antisymm h0 h
    simp [this]
  · simp only [h0, if_false]
    have : max raw 0 = raw := max_eq_left h
    simp [this]

theorem greedy_inv_step (inv rcpt dem safety : ℚ) :
    inv + rcpt + max 0 (safety + dem - rcpt - inv) - dem =
      max (inv + rcpt - dem) safety := by
  rcases le_total (safety + dem - rcpt - inv) 0 with h | h
  · rw [max_eq_left h, max_eq_left (by linarith)]
    ring
  · rw [max_eq_right h, max_eq_right (by linarith)]
    ring

theorem greedyNets_map_fst (safety minLot mult : ℚ) (demand receipt : ℤ → ℚ) :
    ∀ (dates : List ℤ) (inv : ℚ),
      (greedyNets safety minLot mult demand receipt dates inv).map Prod.fst =
        dates := by
  intro dates
  induction dates with
  | nil => intro inv; simp [greedyNets]
  | cons t rest ih => intro inv; simp [greedyNets, ih]

theorem greedy_feasible (demand po : ℤ → ℚ) (safety : ℚ) :
    ∀ (dates : List ℤ) (inv : ℚ),
      (∀ pr ∈ greedyNets safety 0 1 demand po dates inv, pr.2 ≤ 999999) →
      (∀ l ∈ invLevelsL demand po (greedyNets safety 0 1 demand po dates inv) inv,
        safety ≤ l) ∧
      (∀ pr ∈ greedyNets safety 0 1 demand po dates inv, lotFeasible 0 1 pr.2) := by
  intro dates
  induction dates with
  | nil =>
    intro inv _
    constructor
    · intro l hl; simp [greedyNets, invLevelsL] at hl
    · intro pr hpr; simp [greedyNets] at hpr
  | cons t rest ih =>
    intro inv hbound
    have hnet : lot_size (max 0 (safety + demand t - po t - inv)) 0 1 =
        max 0 (safety + demand t - po t - inv) :=
      lot_size_no_constraints (le_max_left 0 _)
    have hrec : ∀ pr ∈ greedyNets safety 0 1 demand po rest
        (inv + po t +
          lot_size (max 0 (safety + demand t - po t - inv)) 0 1 - demand t),
        pr.2 ≤ 999999 := by
      intro pr hpr
      exact hbound pr (by rw [greedyNets]; exact List.mem_cons_of_mem _ hpr)
    obtain ⟨ih1, ih2⟩ := ih _ hrec
    constructor
    · intro l hl
      rw [greedyNets] at hl
      simp only [invLevelsL, List.mem_cons] at hl
      rcases hl with rfl | hl
      · rw [hnet, greedy_inv_step]
        exact le_max_right _ _
      · exact ih1 l hl
    · intro pr hpr
      rw [greedyNets] at hpr
      rcases List.mem_cons.mp hpr with rfl | hpr'
      · refine ⟨by rw [hnet]; exact le_max_left 0 _, Or.inr ⟨?_, ?_⟩, ?_, ?_⟩
        · rw [hnet]; exact le_max_left 0 _
        · exact hbound _ (by rw [greedyNets]; exact List.mem_cons_self _ _)
        · intro h; exact absurd h (by norm_num)
        · rintro (h | h) <;> exact absurd h (by norm_num)
      · exact ih2 pr hpr'

theorem invLevelsL_last (demand po : ℤ → ℚ) :
    ∀ (prs : List (ℤ × ℚ)) (inv : ℚ),
      (invLevelsL demand po prs inv).getLastD inv =
        inv + (prs.map (fun pr => po pr.1 + pr.2 - demand pr.1)).sum := by
  intro prs
  induction prs with
  | nil => intro inv; simp [invLevelsL]
  | cons pr rest ih =>
    obtain ⟨d, v⟩ := pr
    intro inv
    simp only [invLevelsL, List.getLastD_cons, List.map_cons, List.sum_cons]
    rw [ih]
    ring

theorem netSum_split (demand po : ℤ → ℚ) :
    ∀ prs : List (ℤ × ℚ),
      (prs.map (fun pr => po pr.1 + pr.2 - demand pr.1)).sum =
        (prs.map (fun pr => po pr.1 - demand pr.1)).sum + totalNetL prs := by
  intro prs
  induction prs with
  | nil => simp [totalNetL]
  | cons pr rest ih =>
    simp only [List.map_cons, List.sum_cons, totalNetL] at ih ⊢
    rw [ih]
    ring

theorem greedy_min_final (demand po : ℤ → ℚ) (safety : ℚ) :
    ∀ (dates : List ℤ) (ginv yinv : ℚ) (ys : List (ℤ × ℚ)),
      ys.map Prod.fst = dates →
      ginv ≤ yinv →
      (∀ l ∈ invLevelsL demand po ys yinv, safety ≤ l) →
      (∀ pr ∈ ys, 0 ≤ pr.2) →
      (invLevelsL demand po (greedyNets safety 0 1 demand po dates ginv)
          ginv).getLastD ginv ≤
        (invLevelsL demand po ys yinv).getLastD yinv := by
  intro dates
  induction dates with
  | nil =>
    intro ginv yinv ys hfst hle _ _
    have hys : ys = [] := List.map_eq_nil_iff.mp hfst
    subst hys
    simpa [greedyNets, invLevelsL] using hle
  | cons t rest ih =>
    intro ginv yinv ys hfst hle hinv hpos
    cases ys with
    | nil => simp at hfst
    | cons pr ys' =>
      obtain ⟨d, v⟩ := pr
      simp only [List.map_cons, List.cons.injEq] at hfst
      obtain ⟨rfl, hfst'⟩ := hfst
      have hnet : lot_size (max 0 (safety + demand d - po d - ginv)) 0 1 =
          max 0 (safety + demand d - po d - ginv) :=
        lot_size_no_constraints (le_max_left 0 _)
      have hy1 : safety ≤ yinv + po d + v - demand d :=
        hinv _ (by simp [invLevelsL])
      have hyrest : ∀ l ∈ invLevelsL demand po ys' (yinv + po d + v - demand d),
          safety ≤ l := fun l hl => hinv l (by simp [invLevelsL, hl])
      have hv0 : 0 ≤ v := hpos _ (List.mem_cons_self _ _)
      have hposrest : ∀ pr ∈ ys', 0 ≤ pr.2 := fun pr hpr =>
        hpos pr (List.mem_cons_of_mem _ hpr)
      rw [greedyNets]
      simp only [invLevelsL, List.getLastD_cons]
      rw [hnet, greedy_inv_step]
      exact ih _ _ ys' hfst'
        (max_le (by linarith) hy1) hyrest hposrest

/-! ### Theorems on the netting computation -/

/-- Claim C4: every result row emitted by the netting computation from a
solution satisfying the solver's constraint system has
`closing = opening + receipt + net − demand`, carries the material's safety
stock, and its closing inventory is at least that safety stock (the running
inventory never drops below safety stock at any period boundary). -/
theorem C4_net_requirement_row_invariants (item : String) (purchase_lead : ℤ)
    (demand po : ℤ → ℚ) (inv0 safety min_lot mult : ℚ)
    (caps : List (String × ℤ × ℚ)) (prs : List (ℤ × ℚ))
    (hfeas : solverFeasible demand po inv0 safety min_lot mult caps prs) :
    ∀ row ∈ emitRows item purchase_lead demand po safety prs inv0,
      row.closing = row.opening + row.receipt + row.net - row.gross ∧
      row.safety = safety ∧ safety ≤ row.closing := by
  have hinv := hfeas.1
  clear hfeas
  induction prs generalizing inv0 with
  | nil => intro row hrow; simp [emitRows] at hrow
  | cons pr rest ih =>
    obtain ⟨d, v⟩ := pr
    intro row hrow
    have hinv1 : safety ≤ inv0 + po d + v - demand d :=
      hinv _ (by simp [invLevelsL])
    have hinvrest : ∀ l ∈ invLevelsL demand po rest (inv0 + po d + v - demand d),
        safety ≤ l := fun l hl => hinv l (by simp [invLevelsL, hl])
    rw [emitRows] at hrow
    rcases List.mem_append.mp hrow with hrow | hrow
    · by_cases hv : 0 < v
      · simp only [if_pos hv, List.mem_singleton] at hrow
        subst hrow
        exact ⟨by ring, rfl, hinv1⟩
      · simp [hv] at hrow
    · exact ih _ hinvrest row hrow

/-- Closed witness for C4: the worked end-to-end example of the spec
(on-hand 20, safety 10, demand 25 on day 5, net 15) satisfies the row
invariants. -/
theorem C4_net_requirement_row_invariants_witness :
    (NetReqRow.closing ⟨"M", 5, 5, 25, 20, 10, 0, 15, 10⟩ =
        NetReqRow.opening ⟨"M", 5, 5, 25, 20, 10, 0, 15, 10⟩ +
        NetReqRow.receipt ⟨"M", 5, 5, 25, 20, 10, 0, 15, 10⟩ +
        NetReqRow.net ⟨"M", 5, 5, 25, 20, 10, 0, 15, 10⟩ -
        NetReqRow.gross ⟨"M", 5, 5, 25, 20, 10, 0, 15, 10⟩) ∧
    NetReqRow.safety ⟨"M", 5, 5, 25, 20, 10, 0, 15, 10⟩ = 10 ∧
    (10 : ℚ) ≤ NetReqRow.closing ⟨"M", 5, 5, 25, 20, 10, 0, 15, 10⟩ := by
  refine C4_net_requirement_row_invariants ("M") 0
    (fun d => if d = 5 then 25 else 0) (fun _ => 0) 20 10 0 1 [] [(5, 15)]
    ⟨?_, ?_, ?_⟩ _ ?_
  · intro l hl
    simp only [invLevelsL, List.mem_cons, List.not_mem_nil, or_false] at hl
    subst hl
    norm_num
  · intro pr hpr
    simp only [List.mem_singleton] at hpr
    subst hpr
    refine ⟨by norm_num, Or.inr ⟨by norm_num, by norm_num⟩, ?_, ?_⟩
    · intro h; exact absurd h (by norm_num)
    · rintro (h | h) <;> exact absurd h (by norm_num)
  · intro pr hpr r c hc
    rw [capLookup_nil] at hc
    exact absurd hc (by simp)
  · norm_num [emitRows]

/-- Counterexample to claim C2 as stated: with demand 25 on day 5, on-hand
20, safety 10 (net requirement 15 needed), the capacity-free run has a
feasible solution that emits a result row, but with a capacity record of 10
on day 5 the constraint system the netting loop hands to the solver is
infeasible — the code raises instead of returning identical rows, because
capacity IS folded into the per-material solve (advanced_mrp.py 251–256). -/
theorem C2_capacity_independence_counterexample :
    (∃ prs : List (ℤ × ℚ), prs.map Prod.fst = all_dates [("M", 5, 25)] ∧
      solverFeasible (demandOn [("M", 5, 25)] ("M")) (demandOn [] ("M"))
        20 10 0 1 [] prs ∧
      emitRows ("M") 0 (demandOn [("M", 5, 25)] ("M")) (demandOn [] ("M"))
        10 prs 20 ≠ []) ∧
    ¬ (∃ prs : List (ℤ × ℚ), prs.map Prod.fst = all_dates [("M", 5, 25)] ∧
      solverFeasible (demandOn [("M", 5, 25)] ("M")) (demandOn [] ("M"))
        20 10 0 1 [("R", 5, 10)] prs) := by
  have hdates : all_dates [("M", 5, 25)] = [5] := by simp [all_dates]
  constructor
  · refine ⟨[(5, 15)], by simp [hdates], ⟨?_, ?_, ?_⟩, ?_⟩
    · intro l hl
      simp only [invLevelsL, List.mem_cons, List.not_mem_nil, or_false] at hl
      subst hl
      norm_num [demandOn]
    · intro pr hpr
      simp only [List.mem_singleton] at hpr
      subst hpr
      refine ⟨by norm_num, Or.inr ⟨by norm_num, by norm_num⟩, ?_, ?_⟩
      · intro h; exact absurd h (by norm_num)
      · rintro (h | h) <;> exact absurd h (by norm_num)
    · intro pr hpr r c hc
      rw [capLookup_nil] at hc
      cases hc
    · norm_num [emitRows, demandOn]
  · rintro ⟨prs, hfst, hfeas⟩
    rw [hdates] at hfst
    cases prs with
    | nil => simp at hfst
    | cons pr ys =>
      obtain ⟨d, v⟩ := pr
      simp only [List.map_cons, List.cons.injEq] at hfst
      obtain ⟨rfl, hys⟩ := hfst
      have hinv1 : (10 : ℚ) ≤ 20 + demandOn [] ("M") 5 + v -
          demandOn [("M", 5, 25)] ("M") 5 :=
        hfeas.1 _ (by simp [invLevelsL])
      have hv15 : (15 : ℚ) ≤ v := by
        have h0 : demandOn [] ("M") 5 = 0 := by norm_num [demandOn]
        have h25 : demandOn [("M", 5, 25)] ("M") 5 = 25 := by norm_num [demandOn]
        rw [h0, h25] at hinv1
        linarith
      have hcap : capLookup [("R", 5, 10)] ("R") 5 = some 10 := by
        norm_num [capLookup]
      have hv10 : v ≤ 10 :=
        hfeas.2.2 (5, v) (List.mem_cons_self _ _) ("R") 10 hcap
      linarith

/-- Claim C2, amended: the capacity table is read by the per-material
netting loop, not only by the post-hoc checker — relative to the
capacity-free program, each recorded (resource, date, capacity) adds the
constraint `net(date) ≤ capacity` for every material whose grid contains
that date (regardless of the material's actual resource usage), so the
net-requirement results depend on the capacity table and a binding record
can make the solve infeasible. -/
theorem C2_capacity_constraints_in_netting (demand po : ℤ → ℚ)
    (inv0 safety min_lot mult : ℚ) (caps : List (String × ℤ × ℚ))
    (prs : List (ℤ × ℚ)) :
    solverFeasible demand po inv0 safety min_lot mult caps prs ↔
      (solverFeasible demand po inv0 safety min_lot mult [] prs ∧
       ∀ pr ∈ prs, ∀ r c, capLookup caps r pr.1 = some c → pr.2 ≤ c) := by
  unfold solverFeasible
  constructor
  · rintro ⟨h1, h2, h3⟩
    refine ⟨⟨h1, h2, ?_⟩, h3⟩
    intro pr _ r c hc
    rw [capLookup_nil] at hc
    cases hc
  · rintro ⟨⟨h1, h2, _⟩, h3⟩
    exact ⟨h1, h2, h3⟩

/-- Closed witness for the amended C2 at a concrete feasible point. -/
theorem C2_capacity_constraints_in_netting_witness :
    solverFeasible (demandOn [] ("M")) (demandOn [] ("M")) 0 0 0 1 []
      [((5 : ℤ), (5 : ℚ))] ∧
    ∀ pr ∈ [((5 : ℤ), (5 : ℚ))], ∀ r c,
      capLookup [("R", 5, 10)] r pr.1 = some c → pr.2 ≤ c := by
  refine (C2_capacity_constraints_in_netting (demandOn [] ("M"))
    (demandOn [] ("M")) 0 0 0 1 [("R", 5, 10)] [(5, 5)]).mp ⟨?_, ?_, ?_⟩
  · intro l hl
    simp only [invLevelsL, List.mem_cons, List.not_mem_nil, or_false] at hl
    subst hl
    norm_num [demandOn]
  · intro pr hpr
    simp only [List.mem_singleton] at hpr
    subst hpr
    refine ⟨by norm_num, Or.inr ⟨by norm_num, by norm_num⟩, ?_, ?_⟩
    · intro h; exact absurd h (by norm_num)
    · rintro (h | h) <;> exact absurd h (by norm_num)
  · intro pr hpr r c hc
    simp only [List.mem_singleton] at hpr
    subst hpr
    by_cases hr : ("R" : String) = r
    · subst hr
      rw [show capLookup [("R", 5, 10)] ("R") 5 = some 10 by
        norm_num [capLookup]] at hc
      cases hc
      norm_num
    · rw [show capLookup [("R", 5, 10)] r 5 = none by
        simp [capLookup, List.filter, hr]] at hc
      cases hc

/-- Counterexample to claim C1 as stated: a purchase receipt dated off the
demand grid (receipt 100 on day 5, demand 50 on day 10 only) is invisible
to the code's solver, whose grid `all_dates` holds aggregated demand dates
only, while the spec's greedy pass walks the union of demand and receipt
dates.  The greedy nets are all zero (it emits no row), yet every feasible —
hence the solver's optimal — solution carries net ≥ 50 in period 10. -/
theorem C1_solver_greedy_equivalence_counterexample :
    all_dates [("M", 10, 50)] = [10] ∧
    specPeriods [("M", 10, 50)] [("M", 5, 100)] ("M") = [5, 10] ∧
    greedyNets 0 0 1 (demandOn [("M", 10, 50)] ("M"))
      (demandOn [("M", 5, 100)] ("M")) [5, 10] 0 = [(5, 0), (10, 0)] ∧
    (∃ prs : List (ℤ × ℚ), prs.map Prod.fst = [10] ∧
      solverFeasible (demandOn [("M", 10, 50)] ("M"))
        (demandOn [("M", 5, 100)] ("M")) 0 0 0 1 [] prs) ∧
    (∀ prs : List (ℤ × ℚ), prs.map Prod.fst = [10] →
      solverFeasible (demandOn [("M", 10, 50)] ("M"))
        (demandOn [("M", 5, 100)] ("M")) 0 0 0 1 [] prs →
      ∀ pr ∈ prs, 50 ≤ pr.2) := by
  refine ⟨by simp [all_dates], ?_, ?_, ?_, ?_⟩
  · norm_num [specPeriods]
    rw [show ({10, 5} : Finset ℤ) = {5, 10} from by decide]
    rw [Finset.sort_insert]
    · rw [Finset.sort_singleton]
    · simp
    · simp
  · norm_num [greedyNets, lot_size, demandOn]
  · refine ⟨[(10, 50)], by simp, ⟨?_, ?_, ?_⟩⟩
    · intro l hl
      simp only [invLevelsL, List.mem_cons, List.not_mem_nil, or_false] at hl
      subst hl
      norm_num [demandOn]
    · intro pr hpr
      simp only [List.mem_singleton] at hpr
      subst hpr
      refine ⟨by norm_num, Or.inr ⟨by norm_num, by norm_num⟩, ?_, ?_⟩
      · intro h; exact absurd h (by norm_num)
      · rintro (h | h) <;> exact absurd h (by norm_num)
    · intro pr hpr r c hc
      rw [capLookup_nil] at hc
      cases hc
  · rintro prs hfst hfeas pr hpr
    cases prs with
    | nil => simp at hpr
    | cons pr0 ys =>
      obtain ⟨d, v⟩ := pr0
      simp only [List.map_cons, List.cons.injEq] at hfst
      obtain ⟨rfl, hys⟩ := hfst
      have hys' : ys = [] := List.map_eq_nil_iff.mp hys
      subst hys'
      have hinv1 : (0 : ℚ) ≤ 0 + demandOn [("M", 5, 100)] ("M") 10 + v -
          demandOn [("M", 10, 50)] ("M") 10 :=
        hfeas.1 _ (by simp [invLevelsL])
      have hv : (50 : ℚ) ≤ v := by
        have h0 : demandOn [("M", 5, 100)] ("M") 10 = 0 := by norm_num [demandOn]
        have h50 : demandOn [("M", 10, 50)] ("M") 10 = 50 := by norm_num [demandOn]
        rw [h0, h50] at hinv1
        linarith
      simp only [List.mem_singleton] at hpr
      subst hpr
      exact hv

/-- Claim C1, amended: over the code's own date grid, with no capacity
records and no lot-size constraints (min lot 0, lot multiple 1), the spec's
forward greedy pass is an optimal solution of the per-material program the
code hands to the solver: its pairs lie on the same grid, they satisfy
every solver constraint (provided each greedy net fits under the big-M
bound 999999), and no feasible solution has a smaller total net
requirement.  The solver's chosen optimum may still distribute the same
total differently across periods, and purchase receipts dated off the
demand grid break the equivalence entirely (see the counterexample), so
only this optimality — not row-for-row identity — survives. -/
theorem C1_greedy_optimal_for_solver (demand po : ℤ → ℚ) (inv0 safety : ℚ)
    (dates : List ℤ)
    (hbound : ∀ pr ∈ greedyNets safety 0 1 demand po dates inv0,
      pr.2 ≤ 999999) :
    (greedyNets safety 0 1 demand po dates inv0).map Prod.fst = dates ∧
    solverFeasible demand po inv0 safety 0 1 []
      (greedyNets safety 0 1 demand po dates inv0) ∧
    ∀ prs : List (ℤ × ℚ), prs.map Prod.fst = dates →
      solverFeasible demand po inv0 safety 0 1 [] prs →
      totalNetL (greedyNets safety 0 1 demand po dates inv0) ≤ totalNetL prs := by
  obtain ⟨hinv, hlot⟩ := greedy_feasible demand po safety dates inv0 hbound
  refine ⟨greedyNets_map_fst _ _ _ _ _ dates inv0, ⟨hinv, hlot, ?_⟩, ?_⟩
  · intro pr _ r c hc
    rw [capLookup_nil] at hc
    cases hc
  · intro prs hfst hfeas
    have hpos : ∀ pr ∈ prs, 0 ≤ pr.2 := fun pr hpr => (hfeas.2.1 pr hpr).1
    have hfin := greedy_min_final demand po safety dates inv0 inv0 prs hfst
      le_rfl hfeas.1 hpos
    rw [invLevelsL_last, invLevelsL_last, netSum_split, netSum_split] at hfin
    have hproj : ∀ l : List (ℤ × ℚ),
        l.map (fun pr => po pr.1 - demand pr.1) =
          (l.map Prod.fst).map (fun d => po d - demand d) := by
      intro l
      rw [List.map_map]
      rfl
    have hgfst := greedyNets_map_fst safety 0 1 demand po dates inv0
    have hsums : ((greedyNets safety 0 1 demand po dates inv0).map
          (fun pr => po pr.1 - demand pr.1)).sum =
        (prs.map (fun pr => po pr.1 - demand pr.1)).sum := by
      rw [hproj, hproj, hgfst, hfst]
    linarith

/-- Closed witness for the amended C1: the spec's worked example (on-hand
20, safety 10, demand 25 on day 5) has greedy pass [(5, 15)], which lies on
the grid [5]. -/
theorem C1_greedy_optimal_for_solver_witness :
    (greedyNets 10 0 1 (demandOn [("M", 5, 25)] ("M")) (demandOn [] ("M"))
        [5] 20).map Prod.fst = [5] :=
  (C1_greedy_optimal_for_solver (demandOn [("M", 5, 25)] ("M"))
    (demandOn [] ("M")) 20 10 [5] (by
      intro pr hpr
      norm_num [greedyNets, lot_size, demandOn] at hpr
      subst hpr
      norm_num)).1

/-! ### Capacity checker (check_capacity_constraints)

Python's nested dictionaries (`resource_req_map`, `capacity_map`,
`resource_usage`) are insertion-ordered association lists; `d[k] = v` is
`setD`, and read-modify-write with a default is `updD`. -/

/-- First-match association-list lookup (Python dict read). -/
def alookup {α β : Type} [DecidableEq α] : List (α × β) → α → Option β
  | [], _ => none
  | (k', v) :: rest, k => if k' = k then some v else alookup rest k

/-- Python `d[k] = f(d[k] if k in d else dflt)`: modifies in place,
appends when the key is new. -/
def updD {α β : Type} [DecidableEq α] : List (α × β) → α → β → (β → β) → List (α × β)
  | [], k, dflt, f => [(k, f dflt)]
  | (k', v) :: rest, k, dflt, f =>
    if k' = k then (k', f v) :: rest else (k', v) :: updD rest k dflt f

/-- `resource_req_map` of check_capacity_constraints: nested dict
material → resource → usage, later rows overwriting earlier ones. -/
def rrMapBuild (rows : List (String × String × ℚ)) :
    List (String × List (String × ℚ)) :=
  rows.foldl (fun acc row =>
    updD acc row.1 [] (fun inner => setD inner row.2.1 row.2.2)) []

/-- `capacity_map` of check_capacity_constraints: nested dict
resource → date → capacity. -/
def capMapBuild (rows : List (String × ℤ × ℚ)) :
    List (String × List (ℤ × ℚ)) :=
  rows.foldl (fun acc row =>
    updD acc row.1 [] (fun inner => setD inner row.2.1 row.2.2)) []

/-- Lookup in a nested dict. -/
def nestedLookup {κ : Type} [DecidableEq κ]
    (m : List (String × List (κ × ℚ))) (r : String) (d : κ) : Option ℚ :=
  match alookup m r with
  | none => none
  | some inner => alookup inner d

/-- One `resource_usage[resource][date] += total_usage` step of the
accumulation loop, for a contribution keyed (resource, date). -/
def accStep (acc : List (String × List (ℤ × ℚ))) (c : (String × ℤ) × ℚ) :
    List (String × List (ℤ × ℚ)) :=
  updD acc c.1.1 [] (fun inner => updD inner c.1.2 0 (fun x => x + c.2))

/-- The stream of contributions the accumulation loop processes, in order:
for each mrp row whose material has resource requirements, one
((resource, date), net·rate) per requirement entry. -/
def contribs (rrMap : List (String × List (String × ℚ)))
    (mrp : List (String × ℤ × ℚ)) : List ((String × ℤ) × ℚ) :=
  mrp.flatMap (fun row =>
    match alookup rrMap row.1 with
    | none => []
    | some resources =>
      resources.map (fun ru => ((ru.1, row.2.1), row.2.2 * ru.2)))

/-- Fold a contribution stream into a nested usage dict. -/
def accAll (cs : List ((String × ℤ) × ℚ))
    (acc : List (String × List (ℤ × ℚ))) : List (String × List (ℤ × ℚ)) :=
  cs.foldl accStep acc

/-- The accumulation loop of check_capacity_constraints lines 384–402, from
an arbitrary starting dict. -/
def usageFold (rrMap : List (String × List (String × ℚ)))
    (mrp : List (String × ℤ × ℚ)) (acc : List (String × List (ℤ × ℚ))) :
    List (String × List (ℤ × ℚ)) :=
  mrp.foldl (fun acc row =>
    match alookup rrMap row.1 with
    | none => acc
    | some resources =>
      resources.foldl
        (fun acc2 ru => accStep acc2 ((ru.1, row.2.1), row.2.2 * ru.2)) acc) acc

/-- `resource_usage` of check_capacity_constraints: the accumulation loop
started from the empty dict. -/
def usageBuild (rrMap : List (String × List (String × ℚ)))
    (mrp : List (String × ℤ × ℚ)) : List (String × List (ℤ × ℚ)) :=
  usageFold rrMap mrp []

/-- One output row of the capacity checker
(资源编码 / 日期 / 资源使用量 / 可用产能 / 是否超出产能 / 超出量);
`capacity = none` models Python's `float('inf')` default, under which the
violation test `usage > inf` is false and the overage `max(0, usage − inf)`
is 0 for the finite usages this pass produces. -/
structure CapacityCheckRow where
  resource : String
  date : ℤ
  usage : ℚ
  capacity : Option ℚ
  violated : Bool
  overage : ℚ
deriving DecidableEq

/-- Build one `capacity_check_results` record (lines 404–420). -/
def mkCheckRow (capMap : List (String × List (ℤ × ℚ))) (r : String) (d : ℤ)
    (usage : ℚ) : CapacityCheckRow :=
  ⟨r, d, usage, nestedLookup capMap r d,
   match nestedLookup capMap r d with
   | none => false
   | some c => decide (c < usage),
   match nestedLookup capMap r d with
   | none => 0
   | some c => max 0 (usage - c)⟩

/-- Embedding of `check_capacity_constraints` (advanced_mrp.py): build the
requirement and capacity dicts, accumulate resource usage over the net
requirement rows, then emit one record per touched (resource, date). -/
def check_capacity_constraints (mrp : List (String × ℤ × ℚ))
    (capacity_constraints : List (String × ℤ × ℚ))
    (resource_requirements : List (String × String × ℚ)) :
    List CapacityCheckRow :=
  let capMap := capMapBuild capacity_constraints
  let usage := usageBuild (rrMapBuild resource_requirements) mrp
  usage.flatMap (fun ru => ru.2.map (fun du => mkCheckRow capMap ru.1 du.1 du.2))

/-- The amounts a contribution stream carries at one (resource, date) key. -/
def keyAmounts (cs : List ((String × ℤ) × ℚ)) (k : String × ℤ) : List ℚ :=
  (cs.filter (fun c => c.1 = k)).map Prod.snd

/-- Total consumption at a (resource, date) pair: the sum of
net_quantity · usage_per_unit over all contributing (material, period)
rows, the rates read from the material's requirement dict. -/
def consumptionOf (rr : List (String × String × ℚ))
    (mrp : List (String × ℤ × ℚ)) (r : String) (d : ℤ) : ℚ :=
  (keyAmounts (contribs (rrMapBuild rr) mrp) (r, d)).sum

/-! ### Dictionary lemmas for the capacity checker -/

theorem alookup_updD_self {α β : Type} [DecidableEq α] (d : List (α × β))
    (k : α) (dflt : β) (f : β → β) :
    alookup (updD d k dflt f) k = some (f ((alookup d k).getD dflt)) := by
  induction d with
  | nil => simp [updD, alookup]
  | cons e rest ih =>
    obtain ⟨k', v⟩ := e
    by_cases h : k' = k
    · subst h
      simp [updD, alookup]
    · simp [updD, alookup, h, ih]

theorem alookup_updD_ne {α β : Type} [DecidableEq α] (d : List (α × β))
    (k k₁ : α) (dflt : β) (f : β → β) (h : k₁ ≠ k) :
    alookup (updD d k dflt f) k₁ = alookup d k₁ := by
  induction d with
  | nil =>
    have h' : ¬ k = k₁ := fun he => h he.symm
    simp [updD, alookup, h']
  | cons e rest ih =>
    obtain ⟨k', v⟩ := e
    by_cases hk : k' = k
    · subst hk
      have h' : ¬ k' = k₁ := fun he => h he.symm
      simp [updD, alookup, h']
    · by_cases hk1 : k' = k₁ <;> simp [updD, alookup, hk, hk1, h, ih]

theorem alookup_none_of_not_mem {α β : Type} [DecidableEq α]
    (d : List (α × β)) (k : α) (h : k ∉ d.map Prod.fst) :
    alookup d k = none := by
  induction d with
  | nil => simp [alookup]
  | cons e rest ih =>
    obtain ⟨k', v⟩ := e
    simp only [List.map_cons, List.mem_cons, not_or] at h
    have h1 : ¬ k' = k := fun he => h.1 he.symm
    simp [alookup, h1, ih h.2]

theorem alookup_mem {α β : Type} [DecidableEq α] (d : List (α × β)) (k : α)
    (v : β) (h : alookup d k = some v) : ∃ k', (k', v) ∈ d := by
  induction d with
  | nil => simp [alookup] at h
  | cons e rest ih =>
    obtain ⟨k', v'⟩ := e
    by_cases hk : k' = k
    · simp only [alookup, if_pos hk, Option.some.injEq] at h
      exact ⟨k', by simp [h]⟩
    · simp only [alookup, if_neg hk] at h
      obtain ⟨k'', hk''⟩ := ih h
      exact ⟨k'', List.mem_cons_of_mem _ hk''⟩

theorem updD_keys {α β : Type} [DecidableEq α] (d : List (α × β)) (k : α)
    (dflt : β) (f : β → β) :
    (updD d k dflt f).map Prod.fst =
      if k ∈ d.map Prod.fst then d.map Prod.fst
      else d.map Prod.fst ++ [k] := by
  induction d with
  | nil => simp [updD]
  | cons e rest ih =>
    obtain ⟨k', v⟩ := e
    by_cases h : k' = k
    · subst h
      simp [updD]
    · have : ¬ k = k' := fun he => h he.symm
      by_cases h2 : k ∈ rest.map Prod.fst <;>
        simp [updD, h, this, h2, ih]

theorem updD_nodup_keys {α β : Type} [DecidableEq α] {d : List (α × β)}
    (h : (d.map Prod.fst).Nodup) (k : α) (dflt : β) (f : β → β) :
    ((updD d k dflt f).map Prod.fst).Nodup := by
  rw [updD_keys]
  by_cases hk : k ∈ d.map Prod.fst
  · simpa [hk] using h
  · simp [hk, List.nodup_append, h]

theorem updD_mem {α β : Type} [DecidableEq α] (d : List (α × β)) (k : α)
    (dflt : β) (f : β → β) :
    ∀ e ∈ updD d k dflt f, e ∈ d ∨ e.2 = f ((alookup d k).getD dflt) := by
  induction d with
  | nil =>
    intro e he
    simp only [updD, List.mem_singleton] at he
    subst he
    simp [alookup]
  | cons ent rest ih =>
    obtain ⟨k', v⟩ := ent
    intro e he
    by_cases hk : k' = k
    · subst hk
      simp only [updD, if_pos rfl] at he
      cases he with
      | head => right; simp [alookup]
      | tail _ h2 => left; exact List.mem_cons_of_mem _ h2
    · simp only [updD, if_neg hk] at he
      cases he with
      | head => left; exact List.mem_cons_self _ _
      | tail _ h2 =>
        rcases ih e h2 with h' | h'
        · left; exact List.mem_cons_of_mem _ h'
        · right; simpa [alookup, hk] using h'

/-- Well-formed nested dict: distinct outer keys, distinct inner keys. -/
def NestedWF (usage : List (String × List (ℤ × ℚ))) : Prop :=
  (usage.map Prod.fst).Nodup ∧ ∀ e ∈ usage, (e.2.map Prod.fst).Nodup

theorem NestedWF_accStep {acc : List (String × List (ℤ × ℚ))}
    (h : NestedWF acc) (c : (String × ℤ) × ℚ) : NestedWF (accStep acc c) := by
  obtain ⟨houter, hinner⟩ := h
  constructor
  · exact updD_nodup_keys houter _ _ _
  · intro e he
    rcases updD_mem acc c.1.1 [] _ e he with he' | he'
    · exact hinner e he'
    · rw [he']
      apply updD_nodup_keys
      cases hl : alookup acc c.1.1 with
      | none => simp
      | some i =>
        obtain ⟨k', hk'⟩ := alookup_mem _ _ _ hl
        simpa using hinner (k', i) hk'

theorem NestedWF_accAll :
    ∀ (cs : List ((String × ℤ) × ℚ)) (acc : List (String × List (ℤ × ℚ))),
      NestedWF acc → NestedWF (accAll cs acc) := by
  intro cs
  induction cs with
  | nil => intro acc h; exact h
  | cons c cs' ih =>
    intro acc h
    exact ih (accStep acc c) (NestedWF_accStep h c)

theorem nestedLookup_accStep (acc : List (String × List (ℤ × ℚ)))
    (c : (String × ℤ) × ℚ) (r : String) (d : ℤ) :
    nestedLookup (accStep acc c) r d =
      if c.1 = (r, d) then some ((nestedLookup acc r d).getD 0 + c.2)
      else nestedLookup acc r d := by
  obtain ⟨⟨r₀, d₀⟩, a⟩ := c
  by_cases hr : r₀ = r
  · subst hr
    by_cases hd : d₀ = d
    · subst hd
      cases hacc : alookup acc r₀ with
      | none =>
        simp [accStep, nestedLookup, alookup_updD_self, hacc, alookup]
      | some i =>
        simp [accStep, nestedLookup, alookup_updD_self, hacc]
    · have hne : d ≠ d₀ := fun he => hd he.symm
      cases hacc : alookup acc r₀ with
      | none =>
        simp [accStep, nestedLookup, alookup_updD_self,
          alookup_updD_ne _ _ _ _ _ hne, hacc, alookup, hd]
      | some i =>
        simp [accStep, nestedLookup, alookup_updD_self,
          alookup_updD_ne _ _ _ _ _ hne, hacc, hd]
  · have hne : r ≠ r₀ := fun he => hr he.symm
    simp [accStep, nestedLookup, alookup_updD_ne _ _ _ _ _ hne, hr]

theorem nestedLookup_accAll (r : String) (d : ℤ) :
    ∀ (cs : List ((String × ℤ) × ℚ)) (acc : List (String × List (ℤ × ℚ))),
      nestedLookup (accAll cs acc) r d =
        if keyAmounts cs (r, d) = [] then nestedLookup acc r d
        else some ((nestedLookup acc r d).getD 0 + (keyAmounts cs (r, d)).sum) := by
  intro cs
  induction cs with
  | nil => intro acc; simp [accAll, keyAmounts]
  | cons c cs' ih =>
    intro acc
    have hstep := nestedLookup_accStep acc c r d
    rw [show accAll (c :: cs') acc = accAll cs' (accStep acc c) from rfl]
    rw [ih (accStep acc c), hstep]
    by_cases hc : c.1 = (r, d)
    · have hka : keyAmounts (c :: cs') (r, d) = c.2 :: keyAmounts cs' (r, d) := by
        simp [keyAmounts, hc]
      rw [hka, if_pos hc]
      by_cases h0 : keyAmounts cs' (r, d) = []
      · rw [if_pos h0]
        simp [h0]
      · rw [if_neg h0, if_neg (by simp)]
        cases hl : nestedLookup acc r d with
        | none => simp [hl]
        | some v =>
          simp [hl]
          ring
    · have hka : keyAmounts (c :: cs') (r, d) = keyAmounts cs' (r, d) := by
        simp [keyAmounts, hc]
      rw [hka, if_neg hc]

theorem usageFold_eq (rrMap : List (String × List (String × ℚ))) :
    ∀ (mrp : List (String × ℤ × ℚ)) (acc : List (String × List (ℤ × ℚ))),
      usageFold rrMap mrp acc = accAll (contribs rrMap mrp) acc := by
  intro mrp
  induction mrp with
  | nil => intro acc; simp [usageFold, contribs, accAll]
  | cons row rest ih =>
    intro acc
    rw [show usageFold rrMap (row :: rest) acc =
        usageFold rrMap rest
          (match alookup rrMap row.1 with
           | none => acc
           | some resources =>
             resources.foldl
               (fun acc2 ru => accStep acc2 ((ru.1, row.2.1), row.2.2 * ru.2))
               acc) from rfl]
    rw [show contribs rrMap (row :: rest) =
        (match alookup rrMap row.1 with
         | none => []
         | some resources =>
           resources.map (fun ru => ((ru.1, row.2.1), row.2.2 * ru.2))) ++
          contribs rrMap rest from by simp [contribs]]
    cases hl : alookup rrMap row.1 with
    | none =>
      simp only
      rw [ih]
      rfl
    | some resources =>
      simp only
      rw [ih]
      unfold accAll
      rw [List.foldl_append, List.foldl_map]

theorem filter_inner (capMap : List (String × List (ℤ × ℚ))) (r : String)
    (d : ℤ) :
    ∀ (inner : List (ℤ × ℚ)), (inner.map Prod.fst).Nodup →
      ((inner.map (fun du => mkCheckRow capMap r du.1 du.2)).filter
          (fun row => row.resource = r ∧ row.date = d)) =
        match alookup inner d with
        | none => []
        | some v => [mkCheckRow capMap r d v] := by
  intro inner
  induction inner with
  | nil => intro _; simp [alookup]
  | cons du rest ih =>
    obtain ⟨d₀, v₀⟩ := du
    intro hnd
    simp only [List.map_cons, List.nodup_cons] at hnd
    simp only [List.map_cons, List.filter_cons]
    by_cases hd : d₀ = d
    · subst hd
      rw [if_pos (by simp [mkCheckRow])]
      rw [ih hnd.2]
      rw [alookup_none_of_not_mem rest d₀ hnd.1]
      simp [alookup]
    · rw [if_neg (by simp [mkCheckRow, hd])]
      rw [ih hnd.2]
      simp [alookup, hd]

theorem filter_flatten (capMap : List (String × List (ℤ × ℚ))) (r : String)
    (d : ℤ) :
    ∀ (usage : List (String × List (ℤ × ℚ))), NestedWF usage →
      ((usage.flatMap
          (fun ru => ru.2.map (fun du => mkCheckRow capMap ru.1 du.1 du.2))).filter
          (fun row => row.resource = r ∧ row.date = d)) =
        match nestedLookup usage r d with
        | none => []
        | some v => [mkCheckRow capMap r d v] := by
  intro usage
  induction usage with
  | nil => intro _; simp [nestedLookup, alookup]
  | cons ru rest ih =>
    obtain ⟨r₀, inner⟩ := ru
    intro hwf
    obtain ⟨houter, hin⟩ := hwf
    simp only [List.map_cons, List.nodup_cons] at houter
    have hwfrest : NestedWF rest :=
      ⟨houter.2, fun e he => hin e (List.mem_cons_of_mem _ he)⟩
    simp only [List.flatMap_cons, List.filter_append]
    by_cases hr : r₀ = r
    · subst hr
      rw [filter_inner capMap r₀ d inner (hin (r₀, inner) (List.mem_cons_self _ _))]
      rw [ih hwfrest]
      have hrest : nestedLookup rest r₀ d = none := by
        unfold nestedLookup
        rw [alookup_none_of_not_mem rest r₀ houter.1]
      rw [hrest]
      unfold nestedLookup
      simp [alookup]
    · have hinnernil :
          ((inner.map (fun du => mkCheckRow capMap r₀ du.1 du.2)).filter
            (fun row => row.resource = r ∧ row.date = d)) = [] := by
        rw [List.filter_eq_nil_iff]
        intro row hrow
        obtain ⟨du, _, rfl⟩ := List.mem_map.mp hrow
        simp [mkCheckRow, hr]
      rw [hinnernil, ih hwfrest]
      unfold nestedLookup
      simp [alookup, hr]

/-- Claim C8: for every (resource, date) pair with nonzero total
consumption — the sum of net_quantity · usage_per_unit over all
contributing (material, period) rows — the capacity checker emits exactly
one result row for that pair, carrying that consumption, the capacity
looked up from the capacity table (`none` = unlimited, Python's infinity),
`violated = (consumption > capacity)` and
`overage = max(0, consumption − capacity)` (false / 0 without a record). -/
theorem C8_capacity_checker_correct (mrp caps : List (String × ℤ × ℚ))
    (rr : List (String × String × ℚ)) (r : String) (d : ℤ)
    (h : consumptionOf rr mrp r d ≠ 0) :
    ((check_capacity_constraints mrp caps rr).filter
        (fun row => row.resource = r ∧ row.date = d)) =
      [mkCheckRow (capMapBuild caps) r d (consumptionOf rr mrp r d)] := by
  have hwf : NestedWF (usageBuild (rrMapBuild rr) mrp) := by
    rw [usageBuild, usageFold_eq]
    exact NestedWF_accAll _ _ ⟨List.nodup_nil, by simp⟩
  unfold check_capacity_constraints
  rw [filter_flatten _ r d _ hwf]
  rw [usageBuild, usageFold_eq, nestedLookup_accAll]
  have hka : keyAmounts (contribs (rrMapBuild rr) mrp) (r, d) ≠ [] := by
    intro h0
    apply h
    unfold consumptionOf
    rw [h0]
    rfl
  rw [if_neg hka]
  simp [nestedLookup, alookup, consumptionOf]

/-- Closed witness for C8: both worked examples of the spec — net 15 at
rate 2 against capacity 100 gives consumption 30 and no violation; at rate
10 it gives consumption 150, a violation, and overage 50. -/
theorem C8_capacity_checker_correct_witness :
    ((check_capacity_constraints [("M", 5, 15)] [("R", 5, 100)]
        [("M", "R", 10)]).filter
        (fun row => row.resource = "R" ∧ row.date = 5)) =
      [⟨"R", 5, 150, some 100, true, 50⟩] ∧
    ((check_capacity_constraints [("M", 5, 15)] [("R", 5, 100)]
        [("M", "R", 2)]).filter
        (fun row => row.resource = "R" ∧ row.date = 5)) =
      [⟨"R", 5, 30, some 100, false, 0⟩] := by
  constructor
  · rw [C8_capacity_checker_correct [("M", 5, 15)] [("R", 5, 100)]
      [("M", "R", 10)] ("R") 5 (by
        norm_num [consumptionOf, keyAmounts, contribs, rrMapBuild, updD,
          setD, alookup])]
    norm_num [mkCheckRow, nestedLookup, capMapBuild, updD, setD, alookup,
      consumptionOf, keyAmounts, contribs, rrMapBuild]
  · rw [C8_capacity_checker_correct [("M", 5, 15)] [("R", 5, 100)]
      [("M", "R", 2)] ("R") 5 (by
        norm_num [consumptionOf, keyAmounts, contribs, rrMapBuild, updD,
          setD, alookup])]
    norm_num [mkCheckRow, nestedLookup, capMapBuild, updD, setD, alookup,
      consumptionOf, keyAmounts, contribs, rrMapBuild]

/-! ### Input validation as a state transformer (utils.validate_production_plan)

pandas column assignment `df['需求数量'] = pd.to_numeric(df['需求数量'])`
mutates the caller's DataFrame in place, so the validator is modelled as
returning, along with its (is_valid, message) pair, the table as it stands
after the call.  The pandas coercion functions are external; the validator
is parametrised over a per-cell `to_num` / `to_date` (all-or-nothing per
column, as `pd.to_numeric` / `pd.to_datetime` raise on any bad cell), and
the concrete instances below give them enough behaviour to exhibit the
mutation. -/

/-- A cell value of a DataFrame column. -/
inductive PVal where
  | str (s : String)
  | num (q : ℚ)
  | date (d : ℤ)
deriving DecidableEq

/-- A production-plan row: 产品编码, the cosmetic 产品名称, 需求数量,
需求日期. -/
structure PlanRow where
  code : String
  name : String
  qty : PVal
  date : PVal
deriving DecidableEq

/-- Value of a decimal digit character. -/
def digitVal (c : Char) : Option ℕ :=
  if c = '0' then some 0 else if c = '1' then some 1 else if c = '2' then some 2
  else if c = '3' then some 3 else if c = '4' then some 4
  else if c = '5' then some 5 else if c = '6' then some 6
  else if c = '7' then some 7 else if c = '8' then some 8
  else if c = '9' then some 9 else none

/-- Parse a digit string left to right. -/
def parseNatAux : List Char → ℕ → Option ℕ
  | [], acc => some acc
  | c :: rest, acc =>
    match digitVal c with
    | none => none
    | some d => parseNatAux rest (acc * 10 + d)

/-- Parse a nonempty decimal string. -/
def parseNat (s : String) : Option ℕ :=
  match s.data with
  | [] => none
  | l => parseNatAux l 0

/-- A single-cell model of `pd.to_numeric`: numbers pass through, digit
strings parse, anything else raises. -/
def to_numeric_cell : PVal → Option PVal
  | .num q => some (.num q)
  | .str s => (parseNat s).map (fun n => PVal.num n)
  | .date _ => none

/-- A single-cell model of `pd.to_datetime`: datetimes pass through, digit
strings parse as a day number, numbers raise. -/
def to_datetime_cell : PVal → Option PVal
  | .date d => some (.date d)
  | .str s => (parseNat s).map (fun n => PVal.date n)
  | .num _ => none

/-- `df['需求数量'].min() <= 0` on a coerced column: a numeric cell that is
nonpositive (pandas' NaN comparisons are false, so non-numeric cells and
the empty column never trigger the check). -/
def cellNonPos : PVal → Bool
  | .num q => decide (q ≤ 0)
  | _ => false

/-- Embedding of `utils.validate_production_plan` as a state transformer:
coerce the quantity column in place (abort with an error and the
still-unmutated table if the coercion raises), then the date column in
place (abort with the quantity column already mutated), then check
positivity; the returned table is the input as left behind by the in-place
column assignments.  The required-column check of the source is represented
by the `PlanRow` schema itself. -/
def validate_production_plan (to_num to_date : PVal → Option PVal)
    (df : List PlanRow) : (Bool × String) × List PlanRow :=
  match (df.map PlanRow.qty).mapM to_num with
  | none => ((false, "type conversion error"), df)
  | some qtys =>
    let df1 := (df.zip qtys).map (fun p => { p.1 with qty := p.2 })
    match (df1.map PlanRow.date).mapM to_date with
    | none => ((false, "type conversion error"), df1)
    | some dates =>
      let df2 := (df1.zip dates).map (fun p => { p.1 with date := p.2 })
      ((if (df2.map PlanRow.qty).any cellNonPos then
          (false, "demand quantity must be positive")
        else (true, "")), df2)

/-- The table as the validator leaves it: quantity column coerced if its
coercion succeeds, then date column coerced if its coercion succeeds. -/
def coercedTable (to_num to_date : PVal → Option PVal) (df : List PlanRow) :
    List PlanRow :=
  match (df.map PlanRow.qty).mapM to_num with
  | none => df
  | some qtys =>
    let df1 := (df.zip qtys).map (fun p => { p.1 with qty := p.2 })
    match (df1.map PlanRow.date).mapM to_date with
    | none => df1
    | some dates => (df1.zip dates).map (fun p => { p.1 with date := p.2 })

theorem validate_production_plan_snd (to_num to_date : PVal → Option PVal)
    (df : List PlanRow) :
    (validate_production_plan to_num to_date df).2 =
      coercedTable to_num to_date df := by
  unfold validate_production_plan coercedTable
  split
  · rfl
  · dsimp only
    split <;> rfl

theorem mapM_some_forall₂ {f : PVal → Option PVal} :
    ∀ {cells out : List PVal}, cells.mapM f = some out →
      List.Forall₂ (fun c o => f c = some o) cells out := by
  intro cells
  induction cells with
  | nil =>
    intro out h
    simp only [List.mapM_nil, pure, Option.some.injEq] at h
    subst h
    exact List.Forall₂.nil
  | cons c rest ih =>
    intro out h
    rw [List.mapM_cons] at h
    cases hfc : f c with
    | none => rw [hfc] at h; simp at h
    | some v =>
      rw [hfc] at h
      cases hrest : rest.mapM f with
      | none => rw [hrest] at h; simp at h
      | some vs =>
        rw [hrest] at h
        simp at h
        subst h
        exact List.Forall₂.cons hfc (ih hrest)

theorem mapM_id_of_forall {f : PVal → Option PVal} :
    ∀ {cells : List PVal}, (∀ c ∈ cells, f c = some c) →
      cells.mapM f = some cells := by
  intro cells
  induction cells with
  | nil => intro _; rfl
  | cons c rest ih =>
    intro h
    rw [List.mapM_cons, h c (List.mem_cons_self _ _),
      ih (fun c' hc' => h c' (List.mem_cons_of_mem _ hc'))]
    rfl

theorem stage_qty (to_num : PVal → Option PVal) :
    ∀ {df : List PlanRow} {qtys : List PVal},
      List.Forall₂ (fun c o => to_num c = some o) (df.map PlanRow.qty) qtys →
      List.Forall₂ (fun r' r => r'.code = r.code ∧ r'.name = r.name ∧
          to_num r.qty = some r'.qty ∧ r'.date = r.date)
        ((df.zip qtys).map (fun p => { p.1 with qty := p.2 })) df := by
  intro df
  induction df with
  | nil =>
    intro qtys h
    cases h
    exact List.Forall₂.nil
  | cons r rest ih =>
    intro qtys h
    rw [List.map_cons] at h
    cases h with
    | cons h1 h2 =>
      exact List.Forall₂.cons ⟨rfl, rfl, h1, rfl⟩ (ih h2)

theorem stage_date (to_date : PVal → Option PVal) :
    ∀ {df : List PlanRow} {dates : List PVal},
      List.Forall₂ (fun c o => to_date c = some o) (df.map PlanRow.date) dates →
      List.Forall₂ (fun r' r => r'.code = r.code ∧ r'.name = r.name ∧
          r'.qty = r.qty ∧ to_date r.date = some r'.date)
        ((df.zip dates).map (fun p => { p.1 with date := p.2 })) df := by
  intro df
  induction df with
  | nil =>
    intro dates h
    cases h
    exact List.Forall₂.nil
  | cons r rest ih =>
    intro dates h
    rw [List.map_cons] at h
    cases h with
    | cons h1 h2 =>
      exact List.Forall₂.cons ⟨rfl, rfl, rfl, h1⟩ (ih h2)

theorem forall₂_comp {α : Type} {R S T : α → α → Prop}
    (h : ∀ a b c, R a b → S b c → T a c) :
    ∀ {l₁ l₂ l₃ : List α}, List.Forall₂ R l₁ l₂ → List.Forall₂ S l₂ l₃ →
      List.Forall₂ T l₁ l₃ := by
  intro l₁ l₂ l₃ h₁
  induction h₁ generalizing l₃ with
  | nil =>
    intro h₂
    cases h₂
    exact List.Forall₂.nil
  | cons hab hrest ih =>
    intro h₂
    cases h₂ with
    | cons hbc h₂' => exact List.Forall₂.cons (h _ _ _ hab hbc) (ih h₂')

theorem zip_map_qty_self :
    ∀ df : List PlanRow,
      ((df.zip (df.map PlanRow.qty)).map (fun p => { p.1 with qty := p.2 })) = df := by
  intro df
  induction df with
  | nil => rfl
  | cons r rest ih => simp [ih]

theorem zip_map_date_self :
    ∀ df : List PlanRow,
      ((df.zip (df.map PlanRow.date)).map (fun p => { p.1 with date := p.2 })) = df := by
  intro df
  induction df with
  | nil => rfl
  | cons r rest ih => simp [ih]

/-- Row relation between the table after a validator call and before it:
identity except that each coerced column cell is either untouched or the
successful coercion of the original cell. -/
def RowCoherent (to_num to_date : PVal → Option PVal) (r' r : PlanRow) : Prop :=
  r'.code = r.code ∧ r'.name = r.name ∧
  (r'.qty = r.qty ∨ to_num r.qty = some r'.qty) ∧
  (r'.date = r.date ∨ to_date r.date = some r'.date)

/-- Counterexample to claim C9 as stated: the production-plan validator
returns success on a table whose quantity column holds the digit string
"100", and the table afterwards holds the numeral 100 there — pandas'
in-place column coercion has mutated the input. -/
theorem C9_immutability_counterexample :
    validate_production_plan to_numeric_cell to_datetime_cell
        [⟨"P001", "A", .str ("100"), .date 19500⟩] =
      ((true, ""), [⟨"P001", "A", .num 100, .date 19500⟩]) ∧
    ([⟨"P001", "A", PVal.num 100, PVal.date 19500⟩] : List PlanRow) ≠
      [⟨"P001", "A", PVal.str ("100"), PVal.date 19500⟩] :=
  ⟨by decide, by decide⟩

/-- Claim C9, amended: the validators (and the date coercion of
calculate_mrp, which follows the same in-place pattern) mutate exactly the
coerced columns of their inputs: after a call, each row agrees with the
original on every other field, and each coerced cell is either untouched or
the successful coercion of the original cell; on a table whose coerced
columns are already typed (coercion fixes every cell), the validator
returns the table unchanged.  The embedded advanced netting computation
itself constructs only fresh outputs. -/
theorem C9_validator_mutates_only_coerced_columns
    (to_num to_date : PVal → Option PVal) (df : List PlanRow) :
    List.Forall₂ (RowCoherent to_num to_date)
      ((validate_production_plan to_num to_date df).2) df ∧
    ((∀ row ∈ df, to_num row.qty = some row.qty ∧
        to_date row.date = some row.date) →
      (validate_production_plan to_num to_date df).2 = df) := by
  rw [validate_production_plan_snd]
  constructor
  · unfold coercedTable
    cases h1 : (df.map PlanRow.qty).mapM to_num with
    | none =>
      exact List.forall₂_same.mpr
        (fun r _ => ⟨rfl, rfl, Or.inl rfl, Or.inl rfl⟩)
    | some qtys =>
      dsimp only
      have hs1 := stage_qty to_num (mapM_some_forall₂ h1)
      cases h2 : (((df.zip qtys).map (fun p => { p.1 with qty := p.2 })).map
          PlanRow.date).mapM to_date with
      | none =>
        dsimp only
        refine List.Forall₂.imp ?_ hs1
        intro r' r hr
        exact ⟨hr.1, hr.2.1, Or.inr hr.2.2.1, Or.inl hr.2.2.2⟩
      | some dates =>
        dsimp only
        have hs2 := stage_date to_date (mapM_some_forall₂ h2)
        refine forall₂_comp ?_ hs2 hs1
        intro a b c hab hbc
        exact ⟨hab.1.trans hbc.1, hab.2.1.trans hbc.2.1,
          Or.inr (by rw [hab.2.2.1]; exact hbc.2.2.1),
          Or.inr (by rw [← hbc.2.2.2]; exact hab.2.2.2)⟩
  · intro htyped
    unfold coercedTable
    have h1 : (df.map PlanRow.qty).mapM to_num = some (df.map PlanRow.qty) :=
      mapM_id_of_forall (by
        intro c hc
        obtain ⟨r, hr, rfl⟩ := List.mem_map.mp hc
        exact (htyped r hr).1)
    rw [h1]
    dsimp only
    rw [zip_map_qty_self]
    have h2 : (df.map PlanRow.date).mapM to_date = some (df.map PlanRow.date) :=
      mapM_id_of_forall (by
        intro c hc
        obtain ⟨r, hr, rfl⟩ := List.mem_map.mp hc
        exact (htyped r hr).2)
    rw [h2]
    dsimp only
    rw [zip_map_date_self]

/-- Closed witness for the amended C9: on an already-typed one-row table
the validator leaves the table unchanged. -/
theorem C9_validator_mutates_only_coerced_columns_witness :
    (validate_production_plan to_numeric_cell to_datetime_cell
        [⟨"P001", "A", PVal.num 7, PVal.date 3⟩]).2 =
      [⟨"P001", "A", PVal.num 7, PVal.date 3⟩] :=
  (C9_validator_mutates_only_coerced_columns to_numeric_cell to_datetime_cell
      [⟨"P001", "A", PVal.num 7, PVal.date 3⟩]).2
    (by
      intro row hrow
      simp only [List.mem_singleton] at hrow
      subst hrow
      exact ⟨rfl, rfl⟩)

end MRP
